import Mathlib

/-!
Verification of `mitiq/utils.py` against its natural-language specification.

The Python module is shallowly embedded: circuits are lists of moments of
gate operations, qubit identifiers are the indices of `cirq.LineQubit`s
(natural numbers), fallible Python code is modelled with `Except PyErr`,
and the floating-point expressions of `_poor_mans_tomography` are modelled
over the reals with an explicit `NpFloat` type carrying numpy's `nan` and
infinities.
-/

namespace MitiqUtils

/-- Python exceptions (and numpy failure modes) that the embedded code can
surface.  `domainError` is the explicit domain failure demanded by the spec;
it is included so that spec claims about it can be stated, although the
source never raises it. -/
inductive PyErr where
  | keyError
  | nameError
  | notImplementedError
  | circuitMismatch
  | zeroDivisionError
  | domainError
deriving DecidableEq, Repr

/-- Gates appearing in `utils.py`: `cirq.H`, `cirq.CNOT`, measurement gates
(carrying their key string), and eigen gates produced by
`_generate_pmt_circuit` from a base-gate family `id` and a float exponent
(floats are dyadic rationals, so the exponent is stored as a rational). -/
inductive Gate where
  | H
  | CNOT
  | measure (key : String)
  | eigen (id : ℕ) (exponent : ℚ)
deriving DecidableEq, Repr

/-- A `cirq.GateOperation`: a gate applied to a list of qubits.  Qubits are
`cirq.LineQubit` indices, modelled as naturals. -/
structure Op where
  gate : Gate
  qubits : List ℕ
deriving DecidableEq, Repr

/-- A `cirq.Circuit`: a list of moments, each a list of operations. -/
structure Circuit where
  moments : List (List Op)
deriving DecidableEq, Repr

/-- Flattens a moment list into the sequence of its operations
(`cirq.Circuit.all_operations`, moment by moment). -/
def flatOps : List (List Op) → List Op
  | [] => []
  | m :: rest => m ++ flatOps rest

/-- All operations of a circuit in order. -/
def Circuit.ops (c : Circuit) : List Op := flatOps c.moments

/-- The qubits touched by a list of operations, with multiplicity. -/
def flatQ : List Op → List ℕ
  | [] => []
  | op :: rest => op.qubits ++ flatQ rest

/-- The qubits touched by a circuit, with multiplicity. -/
def Circuit.qubitList (c : Circuit) : List ℕ := flatQ c.ops

/-- `circuit.all_qubits()`: the set of qubits touched by the circuit. -/
def Circuit.qubitSet (c : Circuit) : Finset ℕ := c.qubitList.toFinset

/-- `len(circuit.all_qubits())`: the number of distinct qubits. -/
def Circuit.numQubits (c : Circuit) : ℕ := c.qubitSet.card

/-- Insertion of an element into a list governed by a boolean comparison;
used to build deterministic sorted forms. -/
def insTotal (le : α → α → Bool) (x : α) : List α → List α
  | [] => [x]
  | y :: ys => if le x y then x :: y :: ys else y :: insTotal le x ys

/-- Insertion sort by a boolean comparison. -/
def sortBy (le : α → α → Bool) : List α → List α
  | [] => []
  | x :: xs => insTotal le x (sortBy le xs)

theorem insTotal_perm (le : α → α → Bool) (x : α) (l : List α) :
    (insTotal le x l).Perm (x :: l) := by
  induction l with
  | nil => simp [insTotal]
  | cons y ys ih =>
    by_cases h : le x y
    · simp [insTotal, h]
    · simp only [insTotal, h, if_false]
      exact (ih.cons y).trans (List.Perm.swap x y ys)

theorem sortBy_perm (le : α → α → Bool) (l : List α) : (sortBy le l).Perm l := by
  induction l with
  | nil => simp [sortBy]
  | cons x xs ih => exact (insTotal_perm le x (sortBy le xs)).trans (ih.cons x)

/-- `sorted(circuit.all_qubits())`: the distinct qubits in ascending order. -/
def Circuit.sortedQubits (c : Circuit) : List ℕ :=
  sortBy (fun a b => a ≤ b) c.qubitList.dedup

theorem sortedQubits_nodup (c : Circuit) : c.sortedQubits.Nodup :=
  (sortBy_perm _ _).symm.nodup (List.nodup_dedup _)

theorem mem_sortedQubits (c : Circuit) (q : ℕ) :
    q ∈ c.sortedQubits ↔ q ∈ c.qubitList := by
  rw [Circuit.sortedQubits, (sortBy_perm _ _).mem_iff, List.mem_dedup]

theorem length_sortedQubits (c : Circuit) : c.sortedQubits.length = c.numQubits := by
  rw [Circuit.sortedQubits, (sortBy_perm _ _).length_eq, Circuit.numQubits,
    Circuit.qubitSet, List.card_toFinset]

/-- Do two operations act on a common qubit?  This is cirq's default
non-commutation test, which induces the dependency structure of
`cirq.CircuitDag`. -/
def opConflicts (a b : Op) : Bool :=
  a.qubits.any (fun q => b.qubits.contains q)

/-- Dependency depth of an operation: one past the deepest earlier operation
it shares a qubit with (0 if it commutes with everything before it). -/
def nodeLevel (seen : List (ℕ × Op)) (op : Op) : ℕ :=
  seen.foldr (fun p m => if opConflicts p.2 op then max m (p.1 + 1) else m) 0

/-- Tags each operation of the list with its dependency depth, in order. -/
def assignLevels : List (ℕ × Op) → List Op → List (ℕ × Op)
  | acc, [] => acc
  | acc, op :: rest => assignLevels (acc ++ [(nodeLevel acc op, op)]) rest

/-- Constructor index used by the total order on gates. -/
def gateTag : Gate → ℕ
  | .H => 0
  | .CNOT => 1
  | .measure _ => 2
  | .eigen _ _ => 3

/-- A total boolean comparison on gates (any deterministic tie-break works
for canonicalization). -/
def gateLE (a b : Gate) : Bool :=
  if gateTag a ≠ gateTag b then decide (gateTag a ≤ gateTag b)
  else
    match a, b with
    | .measure k1, .measure k2 => decide (k1 < k2) || decide (k1 = k2)
    | .eigen i1 e1, .eigen i2 e2 =>
        if i1 ≠ i2 then decide (i1 ≤ i2) else decide (e1 ≤ e2)
    | _, _ => true

/-- Lexicographic comparison of qubit lists. -/
def listNatLE : List ℕ → List ℕ → Bool
  | [], _ => true
  | _ :: _, [] => false
  | a :: as, b :: bs => if a ≠ b then decide (a ≤ b) else listNatLE as bs

/-- Total comparison on operations. -/
def opLE (a b : Op) : Bool :=
  if a.gate ≠ b.gate then gateLE a.gate b.gate else listNatLE a.qubits b.qubits

/-- Total comparison on depth-tagged operations. -/
def nodeLE (a b : ℕ × Op) : Bool :=
  if a.1 ≠ b.1 then decide (a.1 ≤ b.1) else opLE a.2 b.2

/-- Model of `cirq.CircuitDag.from_circuit` up to the equality test used by
`_equal`: the commutation dag of a circuit is represented by its canonical
form, the list of depth-tagged operations brought into a deterministic
order.  Dag equality is then equality of canonical forms. -/
def circuitDag (c : Circuit) : List (ℕ × Op) :=
  sortBy nodeLE (assignLevels [] c.ops)

theorem snd_assignLevels (l : List Op) :
    ∀ acc : List (ℕ × Op), (assignLevels acc l).map Prod.snd = acc.map Prod.snd ++ l := by
  induction l with
  | nil => intro acc; simp [assignLevels]
  | cons op rest ih =>
    intro acc
    rw [assignLevels, ih, List.map_append]
    simp

theorem dag_ops_perm (c : Circuit) : ((circuitDag c).map Prod.snd).Perm c.ops := by
  have h := (sortBy_perm nodeLE (assignLevels [] c.ops)).map Prod.snd
  rwa [snd_assignLevels c.ops [], List.map_nil, List.nil_append] at h

theorem flatQ_perm_toFinset {l l' : List Op} (h : l.Perm l') :
    (flatQ l).toFinset = (flatQ l').toFinset := by
  induction h with
  | nil => rfl
  | cons x _ ih => simp [flatQ, List.toFinset_append, ih]
  | swap x y l =>
    simp only [flatQ, List.toFinset_append]
    rw [Finset.union_left_comm]
  | trans _ _ ih1 ih2 => exact ih1.trans ih2

theorem numQubits_eq_of_dag_eq {a b : Circuit} (h : circuitDag a = circuitDag b) :
    a.numQubits = b.numQubits := by
  have hperm : a.ops.Perm b.ops :=
    ((dag_ops_perm a).symm.trans (by rw [h])).trans (dag_ops_perm b)
  have hset : a.qubitSet = b.qubitSet := flatQ_perm_toFinset hperm
  rw [Circuit.numQubits, Circuit.numQubits, hset]

/-- Index of the last moment containing an operation that shares a qubit
with `op`, if any. -/
def lastConflictIdx : List (List Op) → Op → Option ℕ
  | [], _ => none
  | m :: rest, op =>
    match lastConflictIdx rest op with
    | some i => some (i + 1)
    | none => if m.any (fun o => opConflicts o op) then some 0 else none

/-- `circuit.append(op)` with cirq's earliest-style insertion: the operation
goes into the first moment after the last moment it conflicts with (a new
moment is created at the end if needed).  For the `H`/`CNOT` sequences built
in `_max_ent_state_circuit` all of cirq's earliest-flavoured strategies
produce these same moments. -/
def appendEarliest (c : Circuit) (op : Op) : Circuit :=
  let k : ℕ :=
    match lastConflictIdx c.moments op with
    | some i => i + 1
    | none => 0
  if k < c.moments.length then
    ⟨c.moments.set k (c.moments.getD k [] ++ [op])⟩
  else
    ⟨c.moments ++ [[op]]⟩

/-- Embedding of `_max_ent_state_circuit` (utils.py lines 194-222).
`LineQubit.range(num_qubits)` gives the qubits `0, …, num_qubits - 1`, so
`qreg[i]` is the qubit `i`.  For 2 qubits the source appends `H(qreg[0])`
then `CNOT(qreg[0], qreg[1])`; for 4 qubits `H(qreg[0])`, `H(qreg[1])`,
`CNOT(qreg[0], qreg[2])`, `CNOT(qreg[1], qreg[3])`; any other size raises
`NotImplementedError`. -/
def _max_ent_state_circuit (num_qubits : ℤ) : Except PyErr Circuit :=
  if num_qubits = 2 then
    .ok (appendEarliest (appendEarliest ⟨[]⟩ ⟨.H, [0]⟩) ⟨.CNOT, [0, 1]⟩)
  else if num_qubits = 4 then
    .ok (appendEarliest (appendEarliest (appendEarliest (appendEarliest
      ⟨[]⟩ ⟨.H, [0]⟩) ⟨.H, [1]⟩) ⟨.CNOT, [0, 2]⟩) ⟨.CNOT, [1, 3]⟩)
  else
    .error .notImplementedError

/-- Concatenation of circuits, as used by `full_circ += ...` in
`_circuit_to_choi`.  The exact moment packing cirq chooses when appending
does not affect the operation sequence or the qubit set, which is all the
claims about `_circuit_to_choi` depend on; moments are concatenated. -/
def Circuit.concat (a b : Circuit) : Circuit := ⟨a.moments ++ b.moments⟩

/-- The composite circuit built inside `_circuit_to_choi` (utils.py lines
237-242): an empty copy of the input, extended with
`_max_ent_state_circuit(2 * num_qubits)` and then with the input circuit. -/
def _circuit_to_choi_full (c : Circuit) : Except PyErr Circuit :=
  match _max_ent_state_circuit (2 * (c.numQubits : ℤ)) with
  | .error e => .error e
  | .ok maxEnt => .ok (maxEnt.concat c)

/-- Shape model of `cirq.DensityMatrixSimulator().simulate(...)
.final_density_matrix`: simulating a circuit on `q` distinct qubits yields a
`2^q x 2^q` density matrix.  The claims about `_circuit_to_choi` constrain
only this dimension, so the simulator is embedded at that granularity. -/
def finalDensityMatrixDim (c : Circuit) : ℕ := 2 ^ c.numQubits

/-- Embedding of `_circuit_to_choi` (utils.py lines 225-243), tracked up to
the dimension of the returned density matrix. -/
def _circuit_to_choi_dim (c : Circuit) : Except PyErr ℕ :=
  match _circuit_to_choi_full c with
  | .error e => .error e
  | .ok full => .ok (finalDensityMatrixDim full)

theorem ops_concat (a b : Circuit) : (a.concat b).ops = a.ops ++ b.ops := by
  show flatOps (a.moments ++ b.moments) = flatOps a.moments ++ flatOps b.moments
  induction a.moments with
  | nil => simp [flatOps]
  | cons m rest ih => simp [flatOps, ih]

theorem flatQ_append (l l' : List Op) : flatQ (l ++ l') = flatQ l ++ flatQ l' := by
  induction l with
  | nil => simp [flatQ]
  | cons op rest ih => simp [flatQ, ih]

theorem qubitSet_concat (a b : Circuit) :
    (a.concat b).qubitSet = a.qubitSet ∪ b.qubitSet := by
  rw [Circuit.qubitSet, Circuit.qubitList, ops_concat, flatQ_append,
    List.toFinset_append]
  rfl

section ClaimC5C6

/-- Claim C5 (confirmed): for every integer `num_qubits` outside `{2, 4}`,
`_max_ent_state_circuit` raises (`NotImplementedError`, the code's spelling
of the spec's unsupported-size error) and never returns a circuit, while
for 2 and 4 it returns a circuit without error. -/
theorem C5_unsupported_sizes (n : ℤ) (h2 : n ≠ 2) (h4 : n ≠ 4) :
    _max_ent_state_circuit n = .error .notImplementedError ∧
      (∃ c, _max_ent_state_circuit 2 = .ok c) ∧
      (∃ c, _max_ent_state_circuit 4 = .ok c) :=
  ⟨by simp [_max_ent_state_circuit, h2, h4], ⟨_, rfl⟩, ⟨_, rfl⟩⟩

/-- Witness for C5 at the concrete unsupported size 3. -/
theorem C5_unsupported_sizes_witness :
    _max_ent_state_circuit 3 = .error .notImplementedError ∧
      (∃ c, _max_ent_state_circuit 2 = .ok c) ∧
      (∃ c, _max_ent_state_circuit 4 = .ok c) :=
  C5_unsupported_sizes 3 (by decide) (by decide)

/-- Claim C6 (confirmed): `_max_ent_state_circuit(2)` is the circuit
consisting of a Hadamard on qubit 0 followed by a CNOT from qubit 0 to
qubit 1, and `_max_ent_state_circuit(4)` consists of Hadamards on qubits 0
and 1 followed by CNOTs from qubit 0 to qubit 2 and from qubit 1 to
qubit 3. -/
theorem C6_bell_circuits :
    _max_ent_state_circuit 2 = .ok ⟨[[⟨.H, [0]⟩], [⟨.CNOT, [0, 1]⟩]]⟩ ∧
      _max_ent_state_circuit 4 =
        .ok ⟨[[⟨.H, [0]⟩, ⟨.H, [1]⟩], [⟨.CNOT, [0, 2]⟩, ⟨.CNOT, [1, 3]⟩]]⟩ :=
  ⟨rfl, rfl⟩

end ClaimC5C6

section ClaimC1C10

/-- Input circuit used to refute C1 as stated: a single Hadamard on
`LineQubit(5)`. -/
def offLabelCircuit : Circuit := ⟨[[⟨.H, [5]⟩]]⟩

/-- Claim C1, counterexample: the input circuit touches one distinct qubit,
but because its label `5` is not among the max-entangled-state qubits
`{0, 1}`, the composite circuit has three qubits and `_circuit_to_choi`
returns an `8 x 8` matrix instead of the required `2^(2*1) = 4`. -/
theorem C1_counterexample :
    offLabelCircuit.numQubits = 1 ∧
      _circuit_to_choi_dim offLabelCircuit = .ok 8 ∧ (8 : ℕ) ≠ 2 ^ (2 * 1) :=
  ⟨by decide, rfl, by decide⟩

/-- Claim C1 (corrected): for an input circuit with `n` distinct qubits
(`n` in `{1, 2}`) the returned density matrix has dimension
`2^(2n) x 2^(2n)` provided the circuit's qubit labels lie among
`LineQubit(0), …, LineQubit(2n-1)` — not regardless of labels. -/
theorem C1_choi_dimension (c : Circuit)
    (h1 : c.numQubits = 1 ∨ c.numQubits = 2)
    (h2 : c.qubitSet ⊆ Finset.range (2 * c.numQubits)) :
    _circuit_to_choi_dim c = .ok (2 ^ (2 * c.numQubits)) := by
  have hcard : ∀ m : Circuit, m.qubitSet = Finset.range (2 * c.numQubits) →
      _circuit_to_choi_full c = .ok (m.concat c) →
      _circuit_to_choi_dim c = .ok (2 ^ (2 * c.numQubits)) := by
    intro m hm hfull
    have hset : (m.concat c).qubitSet = Finset.range (2 * c.numQubits) := by
      rw [qubitSet_concat, hm, Finset.union_eq_left]
      exact h2
    have hdim : _circuit_to_choi_dim c = .ok (finalDensityMatrixDim (m.concat c)) := by
      unfold _circuit_to_choi_dim
      rw [hfull]
    rw [hdim]
    have hval : finalDensityMatrixDim (m.concat c) = 2 ^ (2 * c.numQubits) := by
      show 2 ^ (m.concat c).qubitSet.card = 2 ^ (2 * c.numQubits)
      rw [hset, Finset.card_range]
    rw [hval]
  rcases h1 with h1 | h1
  · refine hcard ⟨[[⟨.H, [0]⟩], [⟨.CNOT, [0, 1]⟩]]⟩ ?_ ?_
    · rw [h1]; decide
    · rw [_circuit_to_choi_full, h1]; rfl
  · refine hcard ⟨[[⟨.H, [0]⟩, ⟨.H, [1]⟩], [⟨.CNOT, [0, 2]⟩, ⟨.CNOT, [1, 3]⟩]]⟩ ?_ ?_
    · rw [h1]; decide
    · rw [_circuit_to_choi_full, h1]; rfl

/-- Concrete one-qubit circuit on `LineQubit(0)` used as witness input. -/
def inRangeCircuit : Circuit := ⟨[[⟨.H, [0]⟩]]⟩

/-- Witness for C1 at a one-qubit circuit on `LineQubit(0)`: the Choi
matrix is `4 x 4`. -/
theorem C1_choi_dimension_witness :
    (inRangeCircuit.numQubits = 1 ∨ inRangeCircuit.numQubits = 2) ∧
      inRangeCircuit.qubitSet ⊆ Finset.range (2 * inRangeCircuit.numQubits) ∧
      _circuit_to_choi_dim inRangeCircuit = .ok (2 ^ (2 * inRangeCircuit.numQubits)) :=
  ⟨Or.inl (by decide), by decide,
    C1_choi_dimension inRangeCircuit (Or.inl (by decide)) (by decide)⟩

/-- Claim C10 (confirmed): the circuits returned by `_max_ent_state_circuit`
for 2 and 4 qubits act on exactly the qubit sets `{0, 1}` and
`{0, 1, 2, 3}` (`LineQubit(0..num_qubits-1)`), and the composite circuit
built by `_circuit_to_choi` therefore touches exactly
`range(2n) ∪ (input qubits)`: it coincides with the max-entangled register
exactly when the input circuit's labels lie inside it. -/
theorem C10_qubit_alignment (c2 c4 : Circuit)
    (h2 : _max_ent_state_circuit 2 = .ok c2)
    (h4 : _max_ent_state_circuit 4 = .ok c4)
    (c full : Circuit) (hf : _circuit_to_choi_full c = .ok full) :
    c2.qubitSet = Finset.range 2 ∧ c4.qubitSet = Finset.range 4 ∧
      full.qubitSet = Finset.range (2 * c.numQubits) ∪ c.qubitSet := by
  have e2 : _max_ent_state_circuit 2 = .ok ⟨[[⟨.H, [0]⟩], [⟨.CNOT, [0, 1]⟩]]⟩ := rfl
  have e4 : _max_ent_state_circuit 4 =
      .ok ⟨[[⟨.H, [0]⟩, ⟨.H, [1]⟩], [⟨.CNOT, [0, 2]⟩, ⟨.CNOT, [1, 3]⟩]]⟩ := rfl
  rw [e2] at h2
  rw [e4] at h4
  injection h2 with h2
  injection h4 with h4
  subst h2
  subst h4
  refine ⟨by decide, by decide, ?_⟩
  by_cases hn1 : (2 * (c.numQubits : ℤ)) = 2
  · have hn : c.numQubits = 1 := by omega
    rw [_circuit_to_choi_full, hn] at hf
    rw [show _max_ent_state_circuit (2 * ((1 : ℕ) : ℤ)) =
        .ok ⟨[[⟨.H, [0]⟩], [⟨.CNOT, [0, 1]⟩]]⟩ from rfl] at hf
    injection hf with hf
    subst hf
    have hq : (⟨[[⟨.H, [0]⟩], [⟨.CNOT, [0, 1]⟩]]⟩ : Circuit).qubitSet = Finset.range 2 := by
      decide
    rw [qubitSet_concat, hn, hq]
  by_cases hn2 : (2 * (c.numQubits : ℤ)) = 4
  · have hn : c.numQubits = 2 := by omega
    rw [_circuit_to_choi_full, hn] at hf
    rw [show _max_ent_state_circuit (2 * ((2 : ℕ) : ℤ)) =
        .ok ⟨[[⟨.H, [0]⟩, ⟨.H, [1]⟩], [⟨.CNOT, [0, 2]⟩, ⟨.CNOT, [1, 3]⟩]]⟩ from rfl] at hf
    injection hf with hf
    subst hf
    have hq : (⟨[[⟨.H, [0]⟩, ⟨.H, [1]⟩], [⟨.CNOT, [0, 2]⟩, ⟨.CNOT, [1, 3]⟩]]⟩ : Circuit).qubitSet =
        Finset.range 4 := by
      decide
    rw [qubitSet_concat, hn, hq]
  · exfalso
    rw [_circuit_to_choi_full, _max_ent_state_circuit, if_neg hn1, if_neg hn2] at hf
    exact Except.noConfusion hf

/-- Witness for C10: the concrete Bell-pair circuits together with the
composite circuit for the one-qubit input on `LineQubit(0)`. -/
theorem C10_qubit_alignment_witness :
    (⟨[[⟨.H, [0]⟩], [⟨.CNOT, [0, 1]⟩]]⟩ : Circuit).qubitSet = Finset.range 2 ∧
      (⟨[[⟨.H, [0]⟩, ⟨.H, [1]⟩], [⟨.CNOT, [0, 2]⟩, ⟨.CNOT, [1, 3]⟩]]⟩ : Circuit).qubitSet =
        Finset.range 4 ∧
      (⟨[[⟨.H, [0]⟩], [⟨.CNOT, [0, 1]⟩], [⟨.H, [0]⟩]]⟩ : Circuit).qubitSet =
        Finset.range (2 * inRangeCircuit.numQubits) ∪ inRangeCircuit.qubitSet :=
  C10_qubit_alignment _ _ rfl rfl inRangeCircuit _ rfl

end ClaimC1C10

/-- The `qubit_map` dictionary built by `_equal` (utils.py lines 109-114):
`dict(zip(sorted(circuit_one.all_qubits()), sorted(circuit_two.all_qubits())))`.
Python's `zip` truncates to the shorter list. -/
def qubitZipMap (c1 c2 : Circuit) : List (ℕ × ℕ) :=
  c1.sortedQubits.zip c2.sortedQubits

/-- `qubit_map[q]`: dictionary subscript, raising `KeyError` when the key is
absent. -/
def mapQubit (m : List (ℕ × ℕ)) (q : ℕ) : Except PyErr ℕ :=
  match m.lookup q with
  | some r => .ok r
  | none => .error .keyError

/-- Applies `mapQubit` to each qubit of an operation's qubit list,
propagating the first `KeyError`. -/
def mapQubitList (m : List (ℕ × ℕ)) : List ℕ → Except PyErr (List ℕ)
  | [] => .ok []
  | q :: qs =>
    match mapQubit m q with
    | .error e => .error e
    | .ok r =>
      match mapQubitList m qs with
      | .error e => .error e
      | .ok rs => .ok (r :: rs)

/-- Relabels one operation through the qubit map. -/
def transformOp (m : List (ℕ × ℕ)) (op : Op) : Except PyErr Op :=
  match mapQubitList m op.qubits with
  | .error e => .error e
  | .ok qs => .ok ⟨op.gate, qs⟩

/-- Relabels every operation of a moment. -/
def transformMoment (m : List (ℕ × ℕ)) : List Op → Except PyErr (List Op)
  | [] => .ok []
  | op :: rest =>
    match transformOp m op with
    | .error e => .error e
    | .ok o =>
      match transformMoment m rest with
      | .error e => .error e
      | .ok os => .ok (o :: os)

/-- Relabels every moment of a moment list. -/
def transformMoments (m : List (ℕ × ℕ)) : List (List Op) → Except PyErr (List (List Op))
  | [] => .ok []
  | mo :: rest =>
    match transformMoment m mo with
    | .error e => .error e
    | .ok mo2 =>
      match transformMoments m rest with
      | .error e => .error e
      | .ok ms => .ok (mo2 :: ms)

/-- `circuit_one.transform_qubits(lambda q: qubit_map[q])` (utils.py line
115): every qubit of every operation is pushed through the dictionary; a
missing key raises `KeyError`. -/
def transformQubits (c1 c2 : Circuit) : Except PyErr Circuit :=
  match transformMoments (qubitZipMap c1 c2) c1.moments with
  | .error e => .error e
  | .ok ms => .ok ⟨ms⟩

/-- Measurement keys are replaced by the empty string. -/
def eraseKey : Gate → Gate
  | .measure _ => .measure ""
  | g => g

/-- Erases the measurement key of an operation, leaving everything else. -/
def eraseOp (op : Op) : Op := ⟨eraseKey op.gate, op.qubits⟩

/-- Net effect of the measurement-handling block of `_equal` (utils.py lines
117-131): the measurement operations are removed, their keys set to the
empty string, and reinserted at their original positions — i.e. every
measurement key is erased in place. -/
def eraseMeasurementKeys (c : Circuit) : Circuit :=
  ⟨c.moments.map (List.map eraseOp)⟩

/-- Embedding of `_equal` (utils.py lines 79-135).  The opening
`circuit_one is circuit_two` identity test is modelled by structural
equality (calling `_equal(C, C)` passes the same object twice).  When qubit
equality is not required, circuit one's qubits are rewritten through the
zip dictionary; when measurement equality is not required, measurement keys
are erased on both sides; finally the commutation dags are compared. -/
def _equal (circuit_one circuit_two : Circuit)
    (require_qubit_equality : Bool) (require_measurement_equality : Bool) :
    Except PyErr Bool :=
  if circuit_one = circuit_two then .ok true
  else
    match (if require_qubit_equality then .ok circuit_one
           else transformQubits circuit_one circuit_two : Except PyErr Circuit) with
    | .error e => .error e
    | .ok c1 =>
      let pair :=
        if require_measurement_equality then (c1, circuit_two)
        else (eraseMeasurementKeys c1, eraseMeasurementKeys circuit_two)
      .ok (decide (circuitDag pair.1 = circuitDag pair.2))

/-- The total function an operation's qubits go through once every lookup is
known to succeed. -/
def opMapF (m : List (ℕ × ℕ)) (op : Op) : Op :=
  ⟨op.gate, op.qubits.map (fun q => (m.lookup q).getD 0)⟩

/-- The circuit produced by a fully successful qubit relabelling. -/
def mappedCircuit (m : List (ℕ × ℕ)) (c : Circuit) : Circuit :=
  ⟨c.moments.map (List.map (opMapF m))⟩

theorem mapQubitList_ok_of {m : List (ℕ × ℕ)} {qs : List ℕ}
    (h : ∀ q ∈ qs, (m.lookup q).isSome) :
    mapQubitList m qs = .ok (qs.map (fun q => (m.lookup q).getD 0)) := by
  induction qs with
  | nil => rfl
  | cons q qs ih =>
    obtain ⟨v, hv⟩ := Option.isSome_iff_exists.mp (h q (List.mem_cons_self q qs))
    rw [mapQubitList, mapQubit, hv, ih (fun x hx => h x (List.mem_cons_of_mem _ hx))]
    simp [hv]

theorem mapQubitList_err_only {m : List (ℕ × ℕ)} {qs : List ℕ} {e : PyErr}
    (h : mapQubitList m qs = .error e) : e = .keyError := by
  induction qs with
  | nil => exact absurd h (by simp [mapQubitList])
  | cons q qs ih =>
    rw [mapQubitList] at h
    cases hq : m.lookup q with
    | none =>
      rw [mapQubit, hq] at h
      exact (Except.error.inj h).symm
    | some v =>
      rw [mapQubit, hq] at h
      cases hrest : mapQubitList m qs with
      | error e2 =>
        rw [hrest] at h
        obtain rfl := Except.error.inj h
        exact ih hrest
      | ok rs => rw [hrest] at h; exact Except.noConfusion h

theorem mapQubitList_ok_mem {m : List (ℕ × ℕ)} {qs : List ℕ} {r : List ℕ}
    (h : mapQubitList m qs = .ok r) : ∀ q ∈ qs, (m.lookup q).isSome := by
  induction qs generalizing r with
  | nil => intro q hq; exact absurd hq (List.not_mem_nil q)
  | cons q qs ih =>
    intro x hx
    rw [mapQubitList] at h
    cases hq : m.lookup q with
    | none => rw [mapQubit, hq] at h; exact Except.noConfusion h
    | some v =>
      rw [mapQubit, hq] at h
      cases hrest : mapQubitList m qs with
      | error e2 => rw [hrest] at h; exact Except.noConfusion h
      | ok rs =>
        rcases List.mem_cons.mp hx with hxq | hxqs
        · rw [hxq, hq]; rfl
        · exact ih hrest x hxqs

theorem mapQubitList_err_of {m : List (ℕ × ℕ)} {qs : List ℕ}
    (h : ∃ q ∈ qs, m.lookup q = none) : mapQubitList m qs = .error .keyError := by
  cases hr : mapQubitList m qs with
  | error e => rw [mapQubitList_err_only hr]
  | ok r =>
    obtain ⟨q, hq, hnone⟩ := h
    have := mapQubitList_ok_mem hr q hq
    rw [hnone] at this
    exact absurd this (by simp)

theorem transformOp_ok_of {m : List (ℕ × ℕ)} {op : Op}
    (h : ∀ q ∈ op.qubits, (m.lookup q).isSome) :
    transformOp m op = .ok (opMapF m op) := by
  rw [transformOp, mapQubitList_ok_of h]
  rfl

theorem transformOp_err_only {m : List (ℕ × ℕ)} {op : Op} {e : PyErr}
    (h : transformOp m op = .error e) : e = .keyError := by
  rw [transformOp] at h
  cases hq : mapQubitList m op.qubits with
  | error e2 => rw [hq] at h; exact (Except.error.inj h) ▸ mapQubitList_err_only hq
  | ok qs => rw [hq] at h; exact Except.noConfusion h

theorem transformOp_ok_mem {m : List (ℕ × ℕ)} {op o2 : Op}
    (h : transformOp m op = .ok o2) : ∀ q ∈ op.qubits, (m.lookup q).isSome := by
  rw [transformOp] at h
  cases hq : mapQubitList m op.qubits with
  | error e2 => rw [hq] at h; exact Except.noConfusion h
  | ok qs => exact mapQubitList_ok_mem hq

theorem transformMoment_ok_of {m : List (ℕ × ℕ)} {l : List Op}
    (h : ∀ op ∈ l, ∀ q ∈ op.qubits, (m.lookup q).isSome) :
    transformMoment m l = .ok (l.map (opMapF m)) := by
  induction l with
  | nil => rfl
  | cons op rest ih =>
    rw [transformMoment, transformOp_ok_of (h op (List.mem_cons_self op rest)),
      ih (fun o ho => h o (List.mem_cons_of_mem _ ho))]
    rfl

theorem transformMoment_err_only {m : List (ℕ × ℕ)} {l : List Op} {e : PyErr}
    (h : transformMoment m l = .error e) : e = .keyError := by
  induction l with
  | nil => exact absurd h (by simp [transformMoment])
  | cons op rest ih =>
    rw [transformMoment] at h
    cases hop : transformOp m op with
    | error e2 =>
      rw [hop] at h
      exact (Except.error.inj h) ▸ transformOp_err_only hop
    | ok o =>
      rw [hop] at h
      cases hrest : transformMoment m rest with
      | error e2 =>
        rw [hrest] at h
        obtain rfl := Except.error.inj h
        exact ih hrest
      | ok os => rw [hrest] at h; exact Except.noConfusion h

theorem transformMoment_ok_mem {m : List (ℕ × ℕ)} {l l2 : List Op}
    (h : transformMoment m l = .ok l2) :
    ∀ op ∈ l, ∀ q ∈ op.qubits, (m.lookup q).isSome := by
  induction l generalizing l2 with
  | nil => intro op hop; exact absurd hop (List.not_mem_nil op)
  | cons op rest ih =>
    intro o ho
    rw [transformMoment] at h
    cases hop : transformOp m op with
    | error e2 => rw [hop] at h; exact Except.noConfusion h
    | ok o1 =>
      rw [hop] at h
      cases hrest : transformMoment m rest with
      | error e2 => rw [hrest] at h; exact Except.noConfusion h
      | ok os =>
        rcases List.mem_cons.mp ho with hoe | hos
        · exact hoe ▸ transformOp_ok_mem hop
        · exact ih hrest o hos

theorem transformMoments_ok_of {m : List (ℕ × ℕ)} {L : List (List Op)}
    (h : ∀ mo ∈ L, ∀ op ∈ mo, ∀ q ∈ op.qubits, (m.lookup q).isSome) :
    transformMoments m L = .ok (L.map (List.map (opMapF m))) := by
  induction L with
  | nil => rfl
  | cons mo rest ih =>
    rw [transformMoments, transformMoment_ok_of (h mo (List.mem_cons_self mo rest)),
      ih (fun x hx => h x (List.mem_cons_of_mem _ hx))]
    rfl

theorem transformMoments_err_only {m : List (ℕ × ℕ)} {L : List (List Op)} {e : PyErr}
    (h : transformMoments m L = .error e) : e = .keyError := by
  induction L with
  | nil => exact absurd h (by simp [transformMoments])
  | cons mo rest ih =>
    rw [transformMoments] at h
    cases hmo : transformMoment m mo with
    | error e2 =>
      rw [hmo] at h
      exact (Except.error.inj h) ▸ transformMoment_err_only hmo
    | ok mo2 =>
      rw [hmo] at h
      cases hrest : transformMoments m rest with
      | error e2 =>
        rw [hrest] at h
        obtain rfl := Except.error.inj h
        exact ih hrest
      | ok ms => rw [hrest] at h; exact Except.noConfusion h

theorem transformMoments_ok_mem {m : List (ℕ × ℕ)} {L L2 : List (List Op)}
    (h : transformMoments m L = .ok L2) :
    ∀ mo ∈ L, ∀ op ∈ mo, ∀ q ∈ op.qubits, (m.lookup q).isSome := by
  induction L generalizing L2 with
  | nil => intro mo hmo; exact absurd hmo (List.not_mem_nil mo)
  | cons mo rest ih =>
    intro x hx
    rw [transformMoments] at h
    cases hmo : transformMoment m mo with
    | error e2 => rw [hmo] at h; exact Except.noConfusion h
    | ok mo2 =>
      rw [hmo] at h
      cases hrest : transformMoments m rest with
      | error e2 => rw [hrest] at h; exact Except.noConfusion h
      | ok ms =>
        rcases List.mem_cons.mp hx with hxe | hxs
        · exact hxe ▸ transformMoment_ok_mem hmo
        · exact ih hrest x hxs

theorem mem_flatOps {op : Op} {L : List (List Op)} :
    op ∈ flatOps L ↔ ∃ mo ∈ L, op ∈ mo := by
  induction L with
  | nil => simp [flatOps]
  | cons mo rest ih => simp [flatOps, ih]

theorem mem_flatQ {q : ℕ} {l : List Op} :
    q ∈ flatQ l ↔ ∃ op ∈ l, q ∈ op.qubits := by
  induction l with
  | nil => simp [flatQ]
  | cons op rest ih => simp [flatQ, ih]

theorem transformQubits_ok_of (c1 c2 : Circuit)
    (h : ∀ q ∈ c1.qubitList, ((qubitZipMap c1 c2).lookup q).isSome) :
    transformQubits c1 c2 = .ok (mappedCircuit (qubitZipMap c1 c2) c1) := by
  rw [transformQubits, transformMoments_ok_of]
  · rfl
  · intro mo hmo op hop q hq
    exact h q (mem_flatQ.mpr ⟨op, mem_flatOps.mpr ⟨mo, hmo, hop⟩, hq⟩)

theorem transformQubits_err_of (c1 c2 : Circuit)
    (h : ∃ q ∈ c1.qubitList, (qubitZipMap c1 c2).lookup q = none) :
    transformQubits c1 c2 = .error .keyError := by
  cases hr : transformMoments (qubitZipMap c1 c2) c1.moments with
  | error e =>
    rw [transformQubits, hr, transformMoments_err_only hr]
  | ok ms =>
    obtain ⟨q, hq, hnone⟩ := h
    obtain ⟨op, hopmem, hqop⟩ := mem_flatQ.mp hq
    obtain ⟨mo, hmomem, hopmo⟩ := mem_flatOps.mp hopmem
    have := transformMoments_ok_mem hr mo hmomem op hopmo q hqop
    rw [hnone] at this
    exact absurd this (by simp)

theorem flatOps_map (g : Op → Op) (L : List (List Op)) :
    flatOps (L.map (List.map g)) = (flatOps L).map g := by
  induction L with
  | nil => rfl
  | cons mo rest ih => simp [flatOps, ih]

theorem flatQ_map_opMapF (m : List (ℕ × ℕ)) (l : List Op) :
    flatQ (l.map (opMapF m)) = (flatQ l).map (fun q => (m.lookup q).getD 0) := by
  induction l with
  | nil => rfl
  | cons op rest ih => simp [flatQ, opMapF, ih]

theorem qubitList_mapped (m : List (ℕ × ℕ)) (c : Circuit) :
    (mappedCircuit m c).qubitList = c.qubitList.map (fun q => (m.lookup q).getD 0) := by
  rw [mappedCircuit, Circuit.qubitList, Circuit.ops]
  show flatQ (flatOps (c.moments.map (List.map (opMapF m)))) = _
  rw [flatOps_map, flatQ_map_opMapF]
  rfl

theorem list_toFinset_map (l : List ℕ) (f : ℕ → ℕ) :
    (l.map f).toFinset = l.toFinset.image f := by
  ext x
  simp

theorem numQubits_mapped_le (m : List (ℕ × ℕ)) (c : Circuit) :
    (mappedCircuit m c).numQubits ≤ c.numQubits := by
  show (mappedCircuit m c).qubitSet.card ≤ c.qubitSet.card
  rw [Circuit.qubitSet, qubitList_mapped, list_toFinset_map]
  exact Finset.card_image_le

theorem flatQ_map_eraseOp (l : List Op) : flatQ (l.map eraseOp) = flatQ l := by
  induction l with
  | nil => rfl
  | cons op rest ih => simp [flatQ, eraseOp, ih]

theorem numQubits_erase (c : Circuit) :
    (eraseMeasurementKeys c).numQubits = c.numQubits := by
  show (eraseMeasurementKeys c).qubitSet.card = c.qubitSet.card
  rw [Circuit.qubitSet, Circuit.qubitSet, Circuit.qubitList, Circuit.qubitList,
    Circuit.ops, Circuit.ops]
  show (flatQ (flatOps (c.moments.map (List.map eraseOp)))).toFinset.card = _
  rw [flatOps_map, flatQ_map_eraseOp]

theorem lookup_isSome_of_mem_keys {l : List (ℕ × ℕ)} {a : ℕ}
    (h : a ∈ l.map Prod.fst) : (l.lookup a).isSome := by
  induction l with
  | nil => exact absurd h (by simp)
  | cons p rest ih =>
    obtain ⟨k, v⟩ := p
    by_cases hak : a = k
    · subst hak
      simp [List.lookup]
    · have hmem : a ∈ rest.map Prod.fst := by
        rw [List.map_cons] at h
        rcases List.mem_cons.mp h with he | hs
        · exact absurd he hak
        · exact hs
      have hbeq : (a == k) = false := beq_eq_false_iff_ne.mpr hak
      simpa [List.lookup, hbeq] using ih hmem

theorem lookup_eq_none_of_not_mem_keys {l : List (ℕ × ℕ)} {a : ℕ}
    (h : a ∉ l.map Prod.fst) : l.lookup a = none := by
  induction l with
  | nil => rfl
  | cons p rest ih =>
    obtain ⟨k, v⟩ := p
    have hak : a ≠ k := fun e => h (by simp [e])
    have hrest : a ∉ rest.map Prod.fst := fun hm => h (by simp [hm])
    have hbeq : (a == k) = false := beq_eq_false_iff_ne.mpr hak
    simpa [List.lookup, hbeq] using ih hrest

theorem map_fst_zip_take (l1 l2 : List ℕ) :
    (l1.zip l2).map Prod.fst = l1.take l2.length := by
  induction l1 generalizing l2 with
  | nil => simp
  | cons a as ih =>
    cases l2 with
    | nil => simp
    | cons b bs => simp [ih]

theorem zip_keys_all {c1 c2 : Circuit} (hle : c1.numQubits ≤ c2.numQubits) :
    ∀ q ∈ c1.qubitList, ((qubitZipMap c1 c2).lookup q).isSome := by
  intro q hq
  apply lookup_isSome_of_mem_keys
  rw [qubitZipMap, map_fst_zip_take, List.take_of_length_le]
  · exact (mem_sortedQubits c1 q).mpr hq
  · rw [length_sortedQubits, length_sortedQubits]
    exact hle

theorem zip_missing_key {c1 c2 : Circuit} (hlt : c2.numQubits < c1.numQubits) :
    ∃ q ∈ c1.qubitList, (qubitZipMap c1 c2).lookup q = none := by
  have hk : c2.numQubits < c1.sortedQubits.length := by
    rw [length_sortedQubits]; exact hlt
  refine ⟨c1.sortedQubits.get ⟨c2.numQubits, hk⟩, ?_, ?_⟩
  · exact (mem_sortedQubits c1 _).mp (List.get_mem _ _ hk)
  · apply lookup_eq_none_of_not_mem_keys
    rw [qubitZipMap, map_fst_zip_take, length_sortedQubits]
    intro hmem
    obtain ⟨j, hj, hje⟩ := List.getElem_of_mem hmem
    rw [List.getElem_take] at hje
    rw [List.get_eq_getElem] at hje
    have hjk : j = c2.numQubits :=
      ((sortedQubits_nodup c1).getElem_inj_iff).mp hje
    rw [List.length_take] at hj
    omega

section ClaimC2C7

/-- One-qubit circuit used in the C2 counterexample and witness. -/
def oneQubitCircuit : Circuit := ⟨[[⟨.H, [0]⟩]]⟩

/-- Two-qubit circuit used in the C2 counterexample and witness. -/
def twoQubitCircuit : Circuit := ⟨[[⟨.H, [0]⟩], [⟨.H, [1]⟩]]⟩

/-- Claim C2, counterexample: comparing a two-qubit circuit against a
one-qubit circuit with `require_qubit_equality=False` raises `KeyError`
(the zip dictionary has no entry for the extra qubit), instead of returning
`False`. -/
theorem C2_counterexample :
    _equal twoQubitCircuit oneQubitCircuit false false = .error .keyError := rfl

/-- Claim C2 (corrected): with `require_qubit_equality=False`, circuits with
different numbers of distinct qubits are judged not equal only when circuit
one has fewer qubits than circuit two; when circuit one has more qubits the
comparison crashes with a `KeyError` from the truncated zip dictionary. -/
theorem C2_equal_qubit_mismatch (c1 c2 : Circuit) (h : c1.numQubits ≠ c2.numQubits) :
    _equal c1 c2 false false =
      if c1.numQubits < c2.numQubits then .ok false else .error .keyError := by
  have hne : c1 ≠ c2 := fun e => h (congrArg Circuit.numQubits e)
  by_cases hlt : c1.numQubits < c2.numQubits
  · have htr := transformQubits_ok_of c1 c2 (zip_keys_all (le_of_lt hlt))
    have hlt2 : (eraseMeasurementKeys (mappedCircuit (qubitZipMap c1 c2) c1)).numQubits <
        (eraseMeasurementKeys c2).numQubits := by
      rw [numQubits_erase, numQubits_erase]
      exact lt_of_le_of_lt (numQubits_mapped_le (qubitZipMap c1 c2) c1) hlt
    have hdag : circuitDag (eraseMeasurementKeys (mappedCircuit (qubitZipMap c1 c2) c1)) ≠
        circuitDag (eraseMeasurementKeys c2) :=
      fun hd => absurd (numQubits_eq_of_dag_eq hd) (ne_of_lt hlt2)
    rw [if_pos hlt, _equal, if_neg hne]
    simp only [Bool.false_eq_true, if_false, htr]
    rw [decide_eq_false hdag]
  · have hgt : c2.numQubits < c1.numQubits := lt_of_le_of_ne (not_lt.mp hlt) (Ne.symm h)
    have htr := transformQubits_err_of c1 c2 (zip_missing_key hgt)
    rw [if_neg hlt, _equal, if_neg hne]
    simp only [Bool.false_eq_true, if_false, htr]

/-- Witness for C2 at the concrete pair: the one-qubit circuit against the
two-qubit circuit, where the comparison returns `False`. -/
theorem C2_equal_qubit_mismatch_witness :
    oneQubitCircuit.numQubits ≠ twoQubitCircuit.numQubits ∧
      _equal oneQubitCircuit twoQubitCircuit false false =
        if oneQubitCircuit.numQubits < twoQubitCircuit.numQubits then .ok false
        else .error .keyError :=
  ⟨by decide, C2_equal_qubit_mismatch oneQubitCircuit twoQubitCircuit (by decide)⟩

/-- Claim C7 (confirmed): `_equal(C, C)` is true for every circuit `C` and
every combination of the two flags — the function short-circuits on the
`circuit_one is circuit_two` identity test, measurements and keys
included. -/
theorem C7_equal_reflexive (c : Circuit)
    (require_qubit_equality require_measurement_equality : Bool) :
    _equal c c require_qubit_equality require_measurement_equality = .ok true := by
  simp [_equal]

end ClaimC2C7

/-- A numpy double: a finite real value, `nan`, or a signed infinity.  Only
the classification of values as finite/invalid matters to the claims, so
finite values are idealized as reals. -/
inductive NpFloat where
  | val (x : ℝ)
  | nan
  | inf
  | negInf

/-- numpy subtraction on doubles (nan-propagating; infinities as in IEEE). -/
noncomputable def npSub : NpFloat → NpFloat → NpFloat
  | .val x, .val y => .val (x - y)
  | .val _, .inf => .negInf
  | .val _, .negInf => .inf
  | .val _, .nan => .nan
  | .inf, .val _ => .inf
  | .inf, .inf => .nan
  | .inf, .negInf => .inf
  | .inf, .nan => .nan
  | .negInf, .val _ => .negInf
  | .negInf, .inf => .negInf
  | .negInf, .negInf => .nan
  | .negInf, .nan => .nan
  | .nan, _ => .nan

/-- numpy multiplication on doubles (`0 * inf = nan`, signs as in IEEE). -/
noncomputable def npMul : NpFloat → NpFloat → NpFloat
  | .val x, .val y => .val (x * y)
  | .val x, .inf => if x = 0 then .nan else if 0 < x then .inf else .negInf
  | .val x, .negInf => if x = 0 then .nan else if 0 < x then .negInf else .inf
  | .val _, .nan => .nan
  | .inf, .val y => if y = 0 then .nan else if 0 < y then .inf else .negInf
  | .inf, .inf => .inf
  | .inf, .negInf => .negInf
  | .inf, .nan => .nan
  | .negInf, .val y => if y = 0 then .nan else if 0 < y then .negInf else .inf
  | .negInf, .inf => .negInf
  | .negInf, .negInf => .inf
  | .negInf, .nan => .nan
  | .nan, _ => .nan

/-- numpy division on doubles: division by zero warns and yields a signed
infinity (`0/0` yields nan) instead of raising. -/
noncomputable def npDiv : NpFloat → NpFloat → NpFloat
  | .val x, .val y =>
      if y = 0 then (if x = 0 then .nan else if 0 < x then .inf else .negInf)
      else .val (x / y)
  | .val _, .inf => .val 0
  | .val _, .negInf => .val 0
  | .val _, .nan => .nan
  | .inf, .val y => if 0 ≤ y then .inf else .negInf
  | .negInf, .val y => if 0 ≤ y then .negInf else .inf
  | .nan, _ => .nan
  | _, _ => .nan

/-- `np.log` on doubles: a negative argument warns and yields `nan`, zero
yields `-inf`; no exception is raised. -/
noncomputable def npLog : NpFloat → NpFloat
  | .val x => if x < 0 then .nan else if x = 0 then .negInf else .val (Real.log x)
  | .nan => .nan
  | .inf => .inf
  | .negInf => .nan

section
open scoped Classical

/-- `np.power` on doubles: `0 ** negative` warns and yields `inf`; a
negative base with a non-integral exponent yields `nan`; otherwise the real
power.  The non-finite cases are schematic and unreached here. -/
noncomputable def npPow : NpFloat → NpFloat → NpFloat
  | .val x, .val y =>
      if x = 0 ∧ y < 0 then .inf
      else if 0 ≤ x then .val (x ^ y)
      else if h : ∃ n : ℤ, (n : ℝ) = y then .val (x ^ h.choose)
      else .nan
  | .nan, _ => .nan
  | .val _, .nan => .nan
  | .inf, _ => .inf
  | _, _ => .nan

theorem npPow_val_nonneg {x y : ℝ} (hx : 0 ≤ x) (hne : ¬(x = 0 ∧ y < 0)) :
    npPow (.val x) (.val y) = .val (x ^ y) := by
  show (if x = 0 ∧ y < 0 then NpFloat.inf
        else if 0 ≤ x then .val (x ^ y)
        else if h : ∃ n : ℤ, (n : ℝ) = y then .val (x ^ h.choose) else .nan) = .val (x ^ y)
  rw [if_neg hne, if_pos hx]

end

theorem npMul_val (x y : ℝ) : npMul (.val x) (.val y) = .val (x * y) := rfl

theorem npSub_val (x y : ℝ) : npSub (.val x) (.val y) = .val (x - y) := rfl

theorem npMul_val_nan (x : ℝ) : npMul (.val x) .nan = .nan := rfl

theorem npMul_val_negInf {x : ℝ} (h0 : x ≠ 0) (hneg : x < 0) :
    npMul (.val x) .negInf = .inf := by
  show (if x = 0 then NpFloat.nan else if 0 < x then .negInf else .inf) = .inf
  rw [if_neg h0, if_neg (not_lt.mpr hneg.le)]

theorem npLog_neg {x : ℝ} (h : x < 0) : npLog (.val x) = .nan := by
  show (if x < 0 then NpFloat.nan else if x = 0 then .negInf else .val (Real.log x)) = .nan
  rw [if_pos h]

theorem npLog_zero : npLog (.val 0) = .negInf := by
  show (if (0 : ℝ) < 0 then NpFloat.nan else if (0 : ℝ) = 0 then .negInf
        else .val (Real.log 0)) = .negInf
  rw [if_neg (lt_irrefl 0), if_pos rfl]

theorem npLog_pos {x : ℝ} (h : 0 < x) : npLog (.val x) = .val (Real.log x) := by
  show (if x < 0 then NpFloat.nan else if x = 0 then .negInf else .val (Real.log x)) =
    .val (Real.log x)
  rw [if_neg (not_lt.mpr h.le), if_neg (ne_of_gt h)]

theorem npDiv_val {x y : ℝ} (h : y ≠ 0) : npDiv (.val x) (.val y) = .val (x / y) := by
  show (if y = 0 then (if x = 0 then NpFloat.nan else if 0 < x then .inf else .negInf)
        else .val (x / y)) = .val (x / y)
  rw [if_neg h]

/-- The `Q` expression of utils.py line 190:
`(1 - np.power(2*expectation - 1, 1/depth)) / 2`, over numpy doubles.
(`1/depth` with `depth = 0` would raise `ZeroDivisionError` in Python; the
enclosing call can never reach this expression, see `C9`.) -/
noncomputable def pmtQValue (expectation : ℝ) (depth : ℤ) : NpFloat :=
  npDiv (npSub (.val 1) (npPow (.val (2 * expectation - 1)) (.val (1 / (depth : ℝ)))))
    (.val 2)

/-- The `sigma` expression of utils.py line 191, `-0.5*np.log(1 - 2*Q)`, as
a function of the value of `Q`. -/
noncomputable def pmtSigmaLine (Q : NpFloat) : NpFloat :=
  npMul (.val (-(1 / 2))) (npLog (npSub (.val 1) (npMul (.val 2) Q)))

/-- Lines 190-191 of utils.py composed: the sigma value computed from the
executor's expectation value. -/
noncomputable def pmtSigmaValue (expectation : ℝ) (depth : ℤ) : NpFloat :=
  pmtSigmaLine (pmtQValue expectation depth)

/-- The exact IEEE double closest to `2*np.pi` (`np.pi`'s double scaled by
2, which is exact): used for the rotation angle of `_generate_pmt_circuit`.
The float division by `depth` is modelled as exact rational division; no
claim depends on the rounded value. -/
def floatTwoPi : ℚ := 884279719003555 / 140737488355328

/-- An `EigenGate` subclass as passed to `_generate_pmt_circuit`: `gate()`
instantiates it, `gate().num_qubits()` is `arity`, and `gate(exponent=e)`
builds the eigen gate `Gate.eigen id e`. -/
structure EigenGateClass where
  id : ℕ
  arity : ℕ
deriving DecidableEq, Repr

/-- The `for _ in range(depth)` loop of `_generate_pmt_circuit` (utils.py
lines 166-173): each iteration checks the gate arity against the supplied
qubits (raising `CircuitMismatchException` on mismatch) and otherwise
appends a one-operation moment. -/
def pmtMoments (qubits : List ℕ) (gate : EigenGateClass) (angle : ℚ) :
    ℕ → Except PyErr (List (List Op))
  | 0 => .ok []
  | n + 1 =>
    if gate.arity ≠ qubits.length then .error .circuitMismatch
    else
      match pmtMoments qubits gate angle n with
      | .error e => .error e
      | .ok ms => .ok ([⟨.eigen gate.id angle, qubits⟩] :: ms)

/-- Embedding of `_generate_pmt_circuit` (utils.py lines 155-174).
`rotation_angle = 2*np.pi/depth` raises `ZeroDivisionError` when `depth` is
0 (float divided by int 0); `range(depth)` iterates `max(depth, 0)` times;
the arity check sits inside the loop body. -/
def _generate_pmt_circuit (qubits : List ℕ) (depth : ℤ) (gate : EigenGateClass) :
    Except PyErr Circuit :=
  if depth = 0 then .error .zeroDivisionError
  else
    match pmtMoments qubits gate (floatTwoPi / (depth : ℚ)) depth.toNat with
    | .error e => .error e
    | .ok ms => .ok ⟨ms⟩

/-- The names bound at module level in utils.py: the `typing`/`copy`/`numpy`
imports, the `cirq` imports, and the module's own definitions. -/
def moduleNames : List String :=
  ["deepcopy", "cast", "Any", "Dict", "Callable", "Iterable", "np",
   "LineQubit", "Circuit", "CircuitDag", "EigenGate", "Gate", "GateOperation",
   "Moment", "ops", "CNOT", "H", "DensityMatrixSimulator", "OP_TREE",
   "MeasurementGate", "_simplify_gate_exponent", "_simplify_circuit_exponents",
   "_equal", "_are_close_dict", "CircuitMismatchException",
   "_generate_pmt_circuit", "_poor_mans_tomography", "_max_ent_state_circuit",
   "_circuit_to_choi", "_operation_to_choi"]

theorem get_base_gate_missing : "_get_base_gate" ∉ moduleNames := by decide

/-- Python resolves the global name `_get_base_gate` when utils.py line 187
executes.  The module binds no such name (`get_base_gate_missing` checks it
against `moduleNames`), so the lookup raises `NameError`. -/
def resolveGetBaseGate : Except PyErr (Gate → EigenGateClass) := .error .nameError

/-- Embedding of `_poor_mans_tomography` (utils.py lines 177-192): resolve
`_get_base_gate`, reduce the gate, build the tomography circuit, run the
executor, and invert for sigma.  The name resolution on line 187 fails, so
the remainder of the body is unreachable as written. -/
noncomputable def _poor_mans_tomography (executor : Circuit → ℝ) (gate : Gate)
    (qubit : ℕ) (depth : ℤ) : Except PyErr NpFloat :=
  match resolveGetBaseGate with
  | .error e => .error e
  | .ok _get_base_gate =>
    let base_gate := _get_base_gate gate
    match _generate_pmt_circuit [qubit] depth base_gate with
    | .error e => .error e
    | .ok circuit =>
      let expectation := executor circuit
      .ok (pmtSigmaValue expectation depth)

section ClaimC3C4C8C9

/-- Claim C9 (confirmed): every call to `_poor_mans_tomography` fails with a
`NameError` before reaching the executor, because `_get_base_gate` is
neither defined nor imported in the module; the function can never return a
sigma value as written. -/
theorem C9_unresolved_name (executor : Circuit → ℝ) (gate : Gate)
    (qubit : ℕ) (depth : ℤ) :
    "_get_base_gate" ∉ moduleNames ∧
      _poor_mans_tomography executor gate qubit depth = .error .nameError :=
  ⟨get_base_gate_missing, rfl⟩

/-- Claim C3, counterexample: with an executor returning 0 and depth 1 the
intended `Q` is 1 (≥ 0.5), yet the call raises `NameError`, not a domain
error; and the sigma expression of line 191 evaluated at `Q = 1` silently
yields `nan` rather than raising anything. -/
theorem C3_counterexample :
    pmtSigmaLine (.val 1) = .nan ∧
      _poor_mans_tomography (fun _ => 0) (Gate.eigen 0 1) 0 1 = .error .nameError ∧
      (Except.error PyErr.nameError : Except PyErr NpFloat) ≠ .error .domainError := by
  refine ⟨?_, rfl, by simp⟩
  unfold pmtSigmaLine
  rw [npMul_val, npSub_val, npLog_neg (by norm_num), npMul_val_nan]

/-- Claim C3 (corrected): whenever `Q ≥ 0.5`, the sigma expression
`-0.5*np.log(1 - 2*Q)` does not fail with a domain error: it silently
produces an invalid double, `nan` for `Q > 0.5` and `+inf` at `Q = 0.5`
(and the enclosing call never gets that far, failing earlier with a
`NameError`, see C9). -/
theorem C3_silent_invalid (Q : ℝ) (h : 1 / 2 ≤ Q) :
    pmtSigmaLine (.val Q) = .nan ∨ pmtSigmaLine (.val Q) = .inf := by
  rcases eq_or_lt_of_le h with heq | hlt
  · right
    unfold pmtSigmaLine
    rw [npMul_val, npSub_val, ← heq]
    have hz : (1 - 2 * (1 / 2 : ℝ)) = 0 := by norm_num
    rw [hz, npLog_zero, npMul_val_negInf (by norm_num) (by norm_num)]
  · left
    unfold pmtSigmaLine
    rw [npMul_val, npSub_val, npLog_neg (by linarith), npMul_val_nan]

/-- Witness for C3 at `Q = 1`. -/
theorem C3_silent_invalid_witness :
    (1 / 2 : ℝ) ≤ 1 ∧
      (pmtSigmaLine (.val 1) = .nan ∨ pmtSigmaLine (.val 1) = .inf) :=
  ⟨one_half_lt_one.le, C3_silent_invalid 1 one_half_lt_one.le⟩

/-- Claim C4 (code bug): the spec's intended inversion is sound — with an
executor that always returns `E = 1` the expressions of lines 190-191 give
`Q = 0` and `sigma = 0` for every depth — but the function itself cannot
return it: every call fails with `NameError` on the undefined
`_get_base_gate` before the executor is ever invoked. -/
theorem C4_noiseless_executor (depth : ℤ) (_h : 1 ≤ depth) :
    _poor_mans_tomography (fun _ => 1) (Gate.eigen 0 1) 0 depth = .error .nameError ∧
      pmtSigmaValue 1 depth = .val 0 := by
  refine ⟨rfl, ?_⟩
  unfold pmtSigmaValue pmtQValue
  have h1 : (2 * (1 : ℝ) - 1) = 1 := by norm_num
  rw [h1, npPow_val_nonneg zero_le_one (by simp), Real.one_rpow, npSub_val]
  have h2 : (1 - 1 : ℝ) = 0 := by norm_num
  rw [h2, npDiv_val two_ne_zero]
  have h3 : (0 / 2 : ℝ) = 0 := by norm_num
  rw [h3]
  unfold pmtSigmaLine
  rw [npMul_val]
  have h4 : (2 * 0 : ℝ) = 0 := by norm_num
  rw [h4, npSub_val]
  have h5 : (1 - 0 : ℝ) = 1 := by norm_num
  rw [h5, npLog_pos one_pos, Real.log_one, npMul_val]
  have h6 : (-(1 / 2) * 0 : ℝ) = 0 := by norm_num
  rw [h6]

/-- Witness for C4 at the default depth 100. -/
theorem C4_noiseless_executor_witness :
    (1 : ℤ) ≤ 100 ∧
      (_poor_mans_tomography (fun _ => 1) (Gate.eigen 0 1) 0 100 = .error .nameError ∧
        pmtSigmaValue 1 100 = .val 0) :=
  ⟨by decide, C4_noiseless_executor 100 (by decide)⟩

/-- Claim C8, counterexample: a 2-qubit gate applied to a single target
qubit is an arity mismatch, yet `_generate_pmt_circuit` with depth `-1`
returns the empty circuit instead of failing with
`CircuitMismatchException` (the check sits inside the `range(depth)` loop,
which never runs). -/
theorem C8_counterexample :
    ((⟨0, 2⟩ : EigenGateClass).arity ≠ ([0] : List ℕ).length) ∧
      _generate_pmt_circuit [0] (-1) ⟨0, 2⟩ = .ok ⟨[]⟩ :=
  ⟨by decide, rfl⟩

/-- Claim C8 (corrected): for a gate whose arity differs from the number of
supplied target qubits, `_generate_pmt_circuit` fails with
`CircuitMismatchException` only when `depth ≥ 1`; depth 0 fails with
`ZeroDivisionError` before the check, and negative depth skips the loop and
returns an empty circuit.  (`_poor_mans_tomography` itself never reaches
circuit generation, failing earlier with a `NameError`, see C9.) -/
theorem C8_arity_mismatch (qubits : List ℕ) (depth : ℤ) (gate : EigenGateClass)
    (h : gate.arity ≠ qubits.length) :
    _generate_pmt_circuit qubits depth gate =
      if depth = 0 then .error .zeroDivisionError
      else if 1 ≤ depth then .error .circuitMismatch
      else .ok ⟨[]⟩ := by
  unfold _generate_pmt_circuit
  by_cases h0 : depth = 0
  · rw [if_pos h0, if_pos h0]
  · rw [if_neg h0, if_neg h0]
    by_cases h1 : 1 ≤ depth
    · rw [if_pos h1]
      obtain ⟨n, hn⟩ : ∃ n, depth.toNat = n + 1 := ⟨depth.toNat - 1, by omega⟩
      rw [hn]
      simp only [pmtMoments, if_pos h]
    · rw [if_neg h1]
      have hz : depth.toNat = 0 := by omega
      rw [hz]
      rfl

/-- Witness for C8 at depth 3 with a 2-qubit gate on one target. -/
theorem C8_arity_mismatch_witness :
    ((⟨0, 2⟩ : EigenGateClass).arity ≠ ([0] : List ℕ).length) ∧
      _generate_pmt_circuit [0] 3 ⟨0, 2⟩ =
        if (3 : ℤ) = 0 then .error .zeroDivisionError
        else if 1 ≤ (3 : ℤ) then .error .circuitMismatch
        else .ok ⟨[]⟩ :=
  ⟨by decide, C8_arity_mismatch [0] 3 ⟨0, 2⟩ (by decide)⟩

end ClaimC3C4C8C9

end MitiqUtils
